import Mathlib

/-!
# Verification of the tag-ratio analysis engine (`src/src/main.cpp`)

Shallow embedding of the core of the YouTube Tag Correlation Analyzer:
the record model, the substring match rule, the heap-based top-K
selector (`analyzeWithHeap`), the hash-table aggregator
(`analyzeWithHashTable`), the benchmark harness
(`compareDataStructures`), and the `split` utility.

Modelling conventions:
* C++ `double` values (views, likes, ratios, averages) are embedded as
  `ℚ`, making arithmetic exact and decidable.
* C++ `std::string` is embedded as Lean `String`; `std::string::find`
  is embedded as a structural scan over the character list.
* The `unordered_map<string, vector<double>>` of the aggregator is
  embedded pointwise: the bucket of key `k` receives, in loop order,
  one ratio per `(video, tag, selTag)` iteration of the triple loop
  whose `selTag` equals `k` and whose substring test succeeds.
* The `priority_queue` of the selector is embedded by its observable
  behaviour: popping yields the pushed entries in descending `ratio`
  order (ties in an order the C++ implementation leaves unspecified;
  we fix the order mergeSort yields, which is one admissible order).
* Wall-clock durations of the harness are injected as per-run values,
  as the specification's determinism note directs.
-/

namespace TagAnalyzer

/-- Embedding of `struct Video` (main.cpp lines 18-24): title, tag
list, views, likes and the derived like/view ratio. -/
structure Video where
  title : String
  tags : List String
  views : ℚ
  likes : ℚ
  ratio : ℚ
deriving DecidableEq, Repr

/-- Embedding of `std::string::find(selTag) != npos` restricted to the
character list of the haystack: `containsSubstrChars t s` is true iff
`s` occurs as a contiguous substring of `t`.  `find` scans every
position of the haystack (including the end position for an empty
needle), so an empty needle is always found. -/
def containsSubstrChars : List Char → List Char → Bool
  | [], s => s.isEmpty
  | c :: rest, s => s.isPrefixOf (c :: rest) || containsSubstrChars rest s

/-- The match test `tag.find(selTag) != string::npos` used by both
strategies (main.cpp lines 136 and 170). -/
def containsSubstr (t s : String) : Bool :=
  containsSubstrChars t.data s.data

/-- Modelled from the spec: "a record's tag `T` matches a selected tag
`S` iff `S` is a substring of `T`" — stated abstractly as list-infix
containment, to be compared with the code's `containsSubstr`. -/
def MatchRuleSpec (t s : String) : Prop :=
  s.data <:+: t.data

instance (t s : String) : Decidable (MatchRuleSpec t s) := by
  unfold MatchRuleSpec; infer_instance

/-- The candidate pool pushed onto the heap by the triple loop of
`analyzeWithHeap` (main.cpp lines 133-141): one `(ratio, title)` pair
per `(video, tag, selTag)` iteration whose substring test succeeds, in
loop order. -/
def heapEntries (videos : List Video) (selectedTags : List String) :
    List (ℚ × String) :=
  videos.flatMap fun v =>
    v.tags.flatMap fun tag =>
      selectedTags.filterMap fun selTag =>
        if containsSubstr tag selTag then some (v.ratio, v.title) else none

/-- Comparator of the max-heap: `Compare` (main.cpp lines 123-127)
orders pairs by `first` (the ratio); popping yields descending ratios. -/
def ratioGe (a b : ℚ × String) : Bool :=
  decide (b.1 ≤ a.1)

/-- Embedding of `analyzeWithHeap`'s displayed result (main.cpp lines
146-154): the pushed entries popped in descending-ratio order, stopping
after 10 pops or when the heap empties.  Tie order among equal ratios
is implementation-defined in the C++; the embedding fixes the order
`mergeSort` with the heap's comparator yields. -/
def analyzeWithHeap (videos : List Video) (selectedTags : List String) :
    List (ℚ × String) :=
  ((heapEntries videos selectedTags).mergeSort ratioGe).take 10

/-- The bucket of key `k` in `tagRatios` (main.cpp lines 165-175): the
triple loop appends `v.ratio` to `tagRatios[selTag]` whenever the
substring test succeeds, so bucket `k` collects, in loop order, one
ratio per iteration with `selTag = k` and a successful test. -/
def tagRatios (videos : List Video) (selectedTags : List String)
    (k : String) : List ℚ :=
  videos.flatMap fun v =>
    v.tags.flatMap fun tag =>
      selectedTags.filterMap fun selTag =>
        if selTag = k ∧ containsSubstr tag selTag then some v.ratio else none

/-- Embedding of `analyzeWithHashTable`'s displayed result (main.cpp
lines 177-196): for each selected tag in the given order, the mean of
its bucket when the key is present in `tagAverages` (a key is present
iff at least one ratio was appended to its bucket), and "no data"
(`none`) otherwise.  The `entry.second.empty() ? 0.0` branch of line
181 is dead code — a key's bucket is never empty — and is subsumed by
the `none` case. -/
def analyzeWithHashTable (videos : List Video) (selectedTags : List String) :
    List (String × Option ℚ) :=
  selectedTags.map fun tag =>
    let rs := tagRatios videos selectedTags tag
    (tag, if rs.isEmpty then none else some (rs.sum / rs.length))

/-- Number of `(video, tag)` pairs whose tag contains `s`: the number
of times a single selected tag `s` fires the substring test across the
whole record store. -/
def matchCount (videos : List Video) (s : String) : ℕ :=
  (videos.flatMap fun v => v.tags.filter fun tag => containsSubstr tag s).length

/-- Verdict of the benchmark harness (main.cpp lines 228-233). -/
inductive Verdict where
  | heapFaster
  | hashFaster
  | tie
deriving DecidableEq, Repr

/-- `const int runs = 3` (main.cpp line 205). -/
def runs : ℕ := 3

/-- Embedding of `compareDataStructures` (main.cpp lines 204-236) with
injected per-run durations, as the spec's determinism note directs:
`heapTime i` / `hashTime i` stand for the duration returned by the
`i`-th call of `analyzeWithHeap(videos, selectedTags, false)` resp.
`analyzeWithHashTable(videos, selectedTags, false)` (display output
suppressed).  The harness sums the `runs` per-run durations, divides by
`runs` in `double` arithmetic, and compares the averages strictly. -/
def compareDataStructures (heapTime hashTime : ℕ → ℤ) :
    ℚ × ℚ × Verdict :=
  let totalHeap : ℤ := ((List.range runs).map heapTime).sum
  let totalHash : ℤ := ((List.range runs).map hashTime).sum
  let avgHeap : ℚ := (totalHeap : ℚ) / (runs : ℚ)
  let avgHash : ℚ := (totalHash : ℚ) / (runs : ℚ)
  (avgHeap, avgHash,
    if avgHeap < avgHash then Verdict.heapFaster
    else if avgHash < avgHeap then Verdict.hashFaster
    else Verdict.tie)

/-- Record construction in `loadSingleDataset` (main.cpp lines 92-95):
`ratio = (views == 0.0) ? 0.0 : likes / views`, computed once when the
record is built. -/
def mkVideo (title : String) (tags : List String) (views likes : ℚ) :
    Video :=
  { title := title, tags := tags, views := views, likes := likes,
    ratio := if views = 0 then 0 else likes / views }

/-- The `getline` loop of `split` (main.cpp lines 29-38) over the
character list: accumulate characters of the current token (held
reversed); on the delimiter, push the token if non-empty and reset; at
the end of input, `getline` succeeds one last time exactly when
characters remain, so a final non-empty token is pushed. -/
def splitChars (delim : Char) : List Char → List Char → List (List Char)
  | [], current =>
      if current.isEmpty then [] else [current.reverse]
  | c :: rest, current =>
      if c = delim then
        (if current.isEmpty then splitChars delim rest []
         else current.reverse :: splitChars delim rest [])
      else splitChars delim rest (c :: current)

/-- Embedding of `split(s, delim)` (main.cpp lines 29-38): the
delimiter-separated tokens of `s`, empty tokens dropped. -/
def split (s : String) (delim : Char) : List String :=
  (splitChars delim s.data []).map fun cs => String.mk cs

/-- The state a query runs against: the record store (passed to both
analyses by `const` reference) and the current tag selection.  The
analyses are embedded as explicit state transformers so that the
absence of mutation is a provable statement rather than a typing
convention. -/
structure Session where
  videos : List Video
  selectedTags : List String
deriving DecidableEq

/-- Running a heap query against a session: `analyzeWithHeap` contains
no write to `videos` (a `const` reference) nor to `selectedTags`, so
the state transformer returns the state exactly as received. -/
def runHeapQuery (st : Session) : List (ℚ × String) × Session :=
  (analyzeWithHeap st.videos st.selectedTags, st)

/-- Running a hash-table query against a session; like `runHeapQuery`,
the body of `analyzeWithHashTable` never writes to the store or the
selection. -/
def runHashQuery (st : Session) : List (String × Option ℚ) × Session :=
  (analyzeWithHashTable st.videos st.selectedTags, st)

/-- The spec's worked example for the aggregator: three records, all
tagged `music`, with like/view ratios 0.2, 0.4 and 0.6. -/
def sampleVideos : List Video :=
  [mkVideo "v1" ["music"] 5 1,
   mkVideo "v2" ["music"] 5 2,
   mkVideo "v3" ["music"] 5 3]

/-! ## Helper lemmas -/

lemma length_filterMap_ite {α β : Type} (p : α → Prop) [DecidablePred p]
    (f : α → β) (l : List α) :
    (l.filterMap fun x => if p x then some (f x) else none).length
      = l.countP fun x => decide (p x) := by
  induction l with
  | nil => rfl
  | cons x xs ih =>
      by_cases h : p x <;> simp [List.filterMap_cons, h, ih, List.countP_cons]

lemma sum_map_zero {β : Type} (m : List β) :
    (m.map fun _ => (0 : ℕ)).sum = 0 := by
  induction m with
  | nil => rfl
  | cons y ys ih => simp [ih]

lemma sum_map_add_nat {β : Type} (m : List β) (f g : β → ℕ) :
    (m.map fun y => f y + g y).sum = (m.map f).sum + (m.map g).sum := by
  induction m with
  | nil => rfl
  | cons y ys ih => simp [ih]; omega

lemma countP_eq_sum_ite {α : Type} (p : α → Bool) (l : List α) :
    l.countP p = (l.map fun x => if p x then 1 else 0).sum := by
  induction l with
  | nil => rfl
  | cons x xs ih => cases h : p x <;> simp [List.countP_cons, h, ih] <;> omega

lemma countP_eq_and {α : Type} [DecidableEq α] (l : List α) (k : α)
    (q : α → Prop) [DecidablePred q] :
    (l.countP fun s => decide (s = k ∧ q s))
      = if q k then l.count k else 0 := by
  induction l with
  | nil => simp
  | cons a t ih =>
      rw [List.countP_cons, ih, List.count_cons]
      by_cases hak : a = k
      · subst hak
        by_cases hq : q a <;> simp [hq]
      · by_cases hq : q k <;> simp [hak, hq]

lemma heapEntries_video_length (v : Video) (sel : List String) :
    (v.tags.flatMap fun tag =>
        sel.filterMap fun selTag =>
          if containsSubstr tag selTag then some (v.ratio, v.title)
          else none).length
      = (sel.map fun s => (v.tags.filter fun tag => containsSubstr tag s).length).sum := by
  induction v.tags with
  | nil => simp [sum_map_zero]
  | cons tag tags ih =>
      simp only [List.flatMap_cons, List.length_append, ih]
      rw [length_filterMap_ite]
      have hcount : (sel.countP fun s => decide (containsSubstr tag s = true))
          = (sel.map fun s => if containsSubstr tag s then 1 else 0).sum := by
        rw [countP_eq_sum_ite]
        simp
      rw [hcount]
      have hsplit : (sel.map fun s =>
            ((tag :: tags).filter fun t => containsSubstr t s).length).sum
          = (sel.map fun s => (if containsSubstr tag s then 1 else 0)
              + ((tags.filter fun t => containsSubstr t s).length)).sum := by
        congr 1
        apply List.map_congr_left
        intro s _
        by_cases h : containsSubstr tag s <;> simp [List.filter_cons, h] <;> omega
      rw [hsplit, sum_map_add_nat]

lemma heapEntries_length (videos : List Video) (sel : List String) :
    (heapEntries videos sel).length = (sel.map fun s => matchCount videos s).sum := by
  induction videos with
  | nil => simp [heapEntries, matchCount, sum_map_zero]
  | cons v vs ih =>
      have hmc : ∀ s, matchCount (v :: vs) s
          = (v.tags.filter fun tag => containsSubstr tag s).length
            + matchCount vs s := by
        intro s
        simp [matchCount, List.flatMap_cons]
      simp only [heapEntries, List.flatMap_cons, List.length_append]
      rw [heapEntries_video_length]
      have := ih
      simp only [heapEntries] at this
      rw [this]
      have : (sel.map fun s => matchCount (v :: vs) s).sum
          = (sel.map fun s => (v.tags.filter fun tag => containsSubstr tag s).length).sum
            + (sel.map fun s => matchCount vs s).sum := by
        rw [← sum_map_add_nat]
        congr 1
        apply List.map_congr_left
        intro s _
        exact hmc s
      rw [this]

lemma tagRatios_video_length (v : Video) (sel : List String) (k : String) :
    (v.tags.flatMap fun tag =>
        sel.filterMap fun selTag =>
          if selTag = k ∧ containsSubstr tag selTag then some v.ratio
          else none).length
      = sel.count k * (v.tags.filter fun tag => containsSubstr tag k).length := by
  induction v.tags with
  | nil => simp
  | cons tag tags ih =>
      simp only [List.flatMap_cons, List.length_append, ih]
      rw [length_filterMap_ite, countP_eq_and]
      by_cases h : containsSubstr tag k <;>
        simp [List.filter_cons, h, Nat.mul_add, Nat.mul_one] <;> omega

lemma tagRatios_length (videos : List Video) (sel : List String) (k : String) :
    (tagRatios videos sel k).length = sel.count k * matchCount videos k := by
  induction videos with
  | nil => simp [tagRatios, matchCount]
  | cons v vs ih =>
      have hmc : matchCount (v :: vs) k
          = (v.tags.filter fun tag => containsSubstr tag k).length
            + matchCount vs k := by
        simp [matchCount, List.flatMap_cons]
      simp only [tagRatios, List.flatMap_cons, List.length_append]
      rw [tagRatios_video_length]
      have := ih
      simp only [tagRatios] at this
      rw [this, hmc, Nat.mul_add]

lemma containsSubstrChars_nil_pattern (t : List Char) :
    containsSubstrChars t [] = true := by
  induction t with
  | nil => rfl
  | cons c rest ih => simp [containsSubstrChars, List.isPrefixOf]

lemma splitChars_ne_nil (delim : Char) :
    ∀ (cs current l : List Char), l ∈ splitChars delim cs current → l ≠ [] := by
  intro cs
  induction cs with
  | nil =>
      intro current l hl
      by_cases h : current.isEmpty
      · simp [splitChars, h] at hl
      · rw [splitChars, if_neg h] at hl
        have hcur : current ≠ [] := fun hh => h (by simp [hh])
        rcases List.mem_singleton.mp hl with rfl
        simpa [List.reverse_eq_nil_iff] using hcur
  | cons c rest ih =>
      intro current l hl
      by_cases hc : c = delim
      · subst hc
        rw [splitChars, if_pos rfl] at hl
        by_cases h : current.isEmpty
        · rw [if_pos h] at hl
          exact ih [] l hl
        · rw [if_neg h] at hl
          have hcur : current ≠ [] := fun hh => h (by simp [hh])
          rcases List.mem_cons.mp hl with h1 | h1
          · subst h1
            simpa [List.reverse_eq_nil_iff] using hcur
          · exact ih [] l h1
      · rw [splitChars, if_neg hc] at hl
        exact ih (c :: current) l hl

lemma nat_sum_map_eq_zero {β : Type} (l : List β) (f : β → ℕ)
    (h : ∀ x ∈ l, f x = 0) : (l.map f).sum = 0 := by
  induction l with
  | nil => rfl
  | cons y ys ih =>
      simp only [List.map_cons, List.sum_cons]
      rw [h y (List.mem_cons_self y ys), ih fun x hx => h x (List.mem_cons_of_mem y hx)]

lemma nat_le_sum_map {β : Type} (l : List β) (f : β → ℕ) (x : β) (hx : x ∈ l) :
    f x ≤ (l.map f).sum := by
  induction l with
  | nil => cases hx
  | cons y ys ih =>
      simp only [List.map_cons, List.sum_cons]
      rcases List.mem_cons.mp hx with rfl | hmem
      · omega
      · have := ih hmem
        omega

lemma containsSubstrChars_infix_iff (t s : List Char) :
    containsSubstrChars t s = true ↔ s <:+: t := by
  induction t with
  | nil => simp [containsSubstrChars, List.isEmpty_iff]
  | cons c rest ih =>
      simp [containsSubstrChars, List.isPrefixOf_iff_prefix, ih, List.infix_cons_iff]

lemma sample_bucket_eq :
    tagRatios sampleVideos ["music"] "music" = [1/5, 2/5, 3/5] := by
  have hms : containsSubstr "music" "music" = true := by decide
  simp only [tagRatios, sampleVideos, mkVideo, List.flatMap_cons, List.flatMap_nil,
    List.filterMap_cons, List.filterMap_nil]
  norm_num [hms]

lemma sample_aggr_eq :
    analyzeWithHashTable sampleVideos ["music"] = [("music", some (2/5))] := by
  have hb := sample_bucket_eq
  simp only [analyzeWithHashTable, List.map_cons, List.map_nil, hb]
  norm_num

lemma compareDataStructures_eq (heapTime hashTime : ℕ → ℤ) :
    compareDataStructures heapTime hashTime
      = (((heapTime 0 + heapTime 1 + heapTime 2 : ℤ) : ℚ) / 3,
         ((hashTime 0 + hashTime 1 + hashTime 2 : ℤ) : ℚ) / 3,
         if (((heapTime 0 + heapTime 1 + heapTime 2 : ℤ) : ℚ) / 3)
             < (((hashTime 0 + hashTime 1 + hashTime 2 : ℤ) : ℚ) / 3) then
           Verdict.heapFaster
         else if (((hashTime 0 + hashTime 1 + hashTime 2 : ℤ) : ℚ) / 3)
             < (((heapTime 0 + heapTime 1 + heapTime 2 : ℤ) : ℚ) / 3) then
           Verdict.hashFaster
         else Verdict.tie) := by
  have hsum : ∀ f : ℕ → ℤ, ((List.range runs).map f).sum = f 0 + f 1 + f 2 := by
    intro f
    show ((List.range 3).map f).sum = f 0 + f 1 + f 2
    rw [show List.range 3 = [0, 1, 2] by decide]
    simp
    ring
  have hruns : ((runs : ℕ) : ℚ) = 3 := by norm_num [runs]
  simp only [compareDataStructures, hsum, hruns]

lemma verdict_ite_spec (x y : ℚ) :
    ((if x < y then Verdict.heapFaster
      else if y < x then Verdict.hashFaster else Verdict.tie)
        = Verdict.heapFaster ↔ x < y)
    ∧ ((if x < y then Verdict.heapFaster
        else if y < x then Verdict.hashFaster else Verdict.tie)
        = Verdict.hashFaster ↔ y < x)
    ∧ ((if x < y then Verdict.heapFaster
        else if y < x then Verdict.hashFaster else Verdict.tie)
        = Verdict.tie ↔ x = y) := by
  rcases lt_trichotomy x y with h | h | h
  · rw [if_pos h]
    exact ⟨by simp [h], by simp [lt_asymm h], by simp [ne_of_lt h]⟩
  · subst h
    rw [if_neg (lt_irrefl x), if_neg (lt_irrefl x)]
    exact ⟨by simp [lt_irrefl], by simp [lt_irrefl], by simp⟩
  · rw [if_neg (lt_asymm h), if_pos h]
    exact ⟨by simp [lt_asymm h], by simp [h], by simp [ne_of_gt h]⟩

/-! ## Claim theorems -/

/-- C7: the ratio is computed at construction as `likes / views` only
under the `views ≠ 0` guard, a zero-views record gets ratio `0`, and a
record's eligibility for matching is independent of its views and
likes (it depends only on its tags). -/
theorem ratio_construction_spec :
    (∀ (t : String) (tags : List String) (likes : ℚ),
        (mkVideo t tags 0 likes).ratio = 0)
    ∧ (∀ (t : String) (tags : List String) (views likes : ℚ),
        (mkVideo t tags views likes).ratio
          = if views = 0 then 0 else likes / views)
    ∧ (∀ (t : String) (tags : List String) (views likes : ℚ),
        views ≠ 0 → (mkVideo t tags views likes).ratio * views = likes)
    ∧ (∀ (t : String) (tags : List String) (views likes views' likes' : ℚ)
        (sel : List String),
        (heapEntries [mkVideo t tags views likes] sel).length
          = (heapEntries [mkVideo t tags views' likes'] sel).length) := by
  refine ⟨?_, ?_, ?_, ?_⟩
  · intro t tags likes
    simp [mkVideo]
  · intro t tags views likes
    simp [mkVideo]
  · intro t tags views likes hv
    show (if views = 0 then 0 else likes / views) * views = likes
    rw [if_neg hv]
    exact div_mul_cancel₀ _ hv
  · intro t tags views likes views' likes' sel
    rw [heapEntries_length, heapEntries_length]
    simp [matchCount, mkVideo]

/-- Witness for C7 at a concrete record: views 4, likes 2. -/
theorem ratio_construction_spec_witness :
    (mkVideo "t" ["a"] 4 2).ratio * 4 = 2 :=
  ratio_construction_spec.2.2.1 "t" ["a"] 4 2 (by norm_num)

/-- C9: invoked with an empty selection, both strategies run to
completion and return empty results: the triple loop produces no
candidate, the selector prints nothing, the aggregator reports no
entry. -/
theorem empty_selection_total (videos : List Video) :
    heapEntries videos [] = []
    ∧ analyzeWithHeap videos [] = []
    ∧ analyzeWithHashTable videos [] = [] := by
  have h1 : heapEntries videos [] = [] := by
    have hl : (heapEntries videos []).length = 0 := by
      rw [heapEntries_length]
      simp
    exact List.length_eq_zero.mp hl
  refine ⟨h1, ?_, ?_⟩
  · simp [analyzeWithHeap, h1]
  · simp [analyzeWithHashTable]

/-- C10: `split` never returns an empty token, for any input and
delimiter; consequently neither record tag lists (split on `'|'`) nor
the user's selected tags (split on `','`) can contain the empty
string, which would otherwise match every tag since an empty needle is
always found by `find`. -/
theorem split_no_empty_tokens :
    (∀ (s : String) (delim : Char), ∀ t ∈ split s delim, t ≠ "")
    ∧ (∀ t : String, containsSubstr t "" = true) := by
  constructor
  · intro s delim t ht
    rcases List.mem_map.mp ht with ⟨cs, hcs, hmk⟩
    have hne : cs ≠ [] := splitChars_ne_nil delim s.data [] cs hcs
    intro habs
    apply hne
    have : cs = ("" : String).data := by
      rw [← habs, ← hmk]
    simpa using this
  · intro t
    exact containsSubstrChars_nil_pattern t.data

/-- Witness for C10: the first token of `split "a|b" '|'`. -/
theorem split_no_empty_tokens_witness : ("a" : String) ≠ "" :=
  split_no_empty_tokens.1 "a|b" '|' "a" (by decide)

/-- C6: the benchmark harness averages exactly `runs = 3` injected
per-run durations per strategy as `total / 3` in exact arithmetic, and
reports as faster the strategy whose mean is strictly lower, with a
tie exactly on equal means; on the spec's example durations it reports
averages 11 and 8 and the hash-table verdict. -/
theorem benchmark_harness_spec :
    (∀ heapTime hashTime : ℕ → ℤ,
        (compareDataStructures heapTime hashTime).1
          = ((heapTime 0 + heapTime 1 + heapTime 2 : ℤ) : ℚ) / 3
        ∧ (compareDataStructures heapTime hashTime).2.1
          = ((hashTime 0 + hashTime 1 + hashTime 2 : ℤ) : ℚ) / 3
        ∧ ((compareDataStructures heapTime hashTime).2.2 = Verdict.heapFaster
            ↔ (compareDataStructures heapTime hashTime).1
                < (compareDataStructures heapTime hashTime).2.1)
        ∧ ((compareDataStructures heapTime hashTime).2.2 = Verdict.hashFaster
            ↔ (compareDataStructures heapTime hashTime).2.1
                < (compareDataStructures heapTime hashTime).1)
        ∧ ((compareDataStructures heapTime hashTime).2.2 = Verdict.tie
            ↔ (compareDataStructures heapTime hashTime).1
                = (compareDataStructures heapTime hashTime).2.1))
    ∧ compareDataStructures (fun i => [10, 12, 11].getD i 0)
        (fun i => [8, 9, 7].getD i 0) = (11, 8, Verdict.hashFaster) := by
  constructor
  · intro heapTime hashTime
    rw [compareDataStructures_eq heapTime hashTime]
    have hv := verdict_ite_spec
      (((heapTime 0 + heapTime 1 + heapTime 2 : ℤ) : ℚ) / 3)
      (((hashTime 0 + hashTime 1 + hashTime 2 : ℤ) : ℚ) / 3)
    exact ⟨rfl, rfl, hv.1, hv.2.1, hv.2.2⟩
  · rw [compareDataStructures_eq]
    norm_num

/-- C8: neither strategy mutates the session (the record store and the
selection come back exactly as given), and invoking a strategy a
second time on the state left behind by the first yields the identical
result. -/
theorem analysis_idempotent :
    (∀ st : Session, (runHeapQuery st).2 = st ∧ (runHashQuery st).2 = st)
    ∧ (∀ st : Session,
        (runHeapQuery ((runHeapQuery st).2)).1 = (runHeapQuery st).1)
    ∧ (∀ st : Session,
        (runHashQuery ((runHashQuery st).2)).1 = (runHashQuery st).1) :=
  ⟨fun _ => ⟨rfl, rfl⟩, fun _ => rfl, fun _ => rfl⟩

/-- C2: the aggregator produces exactly one entry per selected tag, in
the order the tags were given, and an entry carries the "no data"
marker (`none`) exactly when the tag's bucket collected no ratio. -/
theorem aggregator_entries_spec (videos : List Video) (sel : List String)
    (_hne : sel ≠ []) :
    (analyzeWithHashTable videos sel).length = sel.length
    ∧ (analyzeWithHashTable videos sel).map Prod.fst = sel
    ∧ ∀ p ∈ analyzeWithHashTable videos sel,
        (p.2 = none ↔ tagRatios videos sel p.1 = []) := by
  refine ⟨by simp [analyzeWithHashTable],
    by simp only [analyzeWithHashTable, List.map_map]; exact List.map_id sel, ?_⟩
  intro p hp
  rcases List.mem_map.mp hp with ⟨tag, htag, rfl⟩
  dsimp only
  by_cases h : (tagRatios videos sel tag).isEmpty
  · simp [h, List.isEmpty_iff.mp h]
  · simp only [h, if_neg]
    constructor
    · intro habs
      simp [h] at habs
    · intro habs
      exact absurd (by simp [habs] : (tagRatios videos sel tag).isEmpty = true) h

/-- Witness for C2 with one selected tag and an empty store. -/
theorem aggregator_entries_spec_witness :
    (analyzeWithHashTable [] ["a"]).length = 1 := by
  have h := (aggregator_entries_spec [] ["a"] (by decide)).1
  simpa using h

/-- C3: a selected tag with a non-empty bucket is reported with the
arithmetic mean of the bucket, sum divided by the number of collected
entries; on the spec's example ratios 0.2, 0.4, 0.6 the bucket has
three entries and the reported mean is 0.4. -/
theorem aggregator_mean_spec :
    (∀ (videos : List Video) (sel : List String) (s : String),
        s ∈ sel → tagRatios videos sel s ≠ [] →
        (s, some ((tagRatios videos sel s).sum
            / ((tagRatios videos sel s).length : ℚ)))
          ∈ analyzeWithHashTable videos sel)
    ∧ tagRatios sampleVideos ["music"] "music" = [1/5, 2/5, 3/5]
    ∧ analyzeWithHashTable sampleVideos ["music"]
        = [("music", some (2/5))] := by
  refine ⟨?_, sample_bucket_eq, sample_aggr_eq⟩
  intro videos sel s hs hne
  apply List.mem_map.mpr
  refine ⟨s, hs, ?_⟩
  have h : (tagRatios videos sel s).isEmpty = false := by
    simp [List.isEmpty_iff, hne]
  simp [h]

/-- Witness for C3 on the spec's example data. -/
theorem aggregator_mean_spec_witness :
    ("music", some ((tagRatios sampleVideos ["music"] "music").sum
        / ((tagRatios sampleVideos ["music"] "music").length : ℚ)))
      ∈ analyzeWithHashTable sampleVideos ["music"] :=
  aggregator_mean_spec.1 sampleVideos ["music"] "music" (by decide)
    (by rw [sample_bucket_eq]; simp)

/-- C4: both strategies count one entry per matching raw tag:
the heap pool holds one entry per selected-tag occurrence per matching
`(record, raw tag)` pair, and a bucket of the aggregator holds exactly
`count × matches` entries for the same match counter; on the spec's
example (tags `music` and `musicvideo`, selection `music`) both
strategies register two entries from the single record. -/
theorem duplication_semantics :
    (∀ (videos : List Video) (sel : List String),
        (heapEntries videos sel).length
          = (sel.map fun s => matchCount videos s).sum)
    ∧ (∀ (videos : List Video) (sel : List String) (k : String),
        (tagRatios videos sel k).length = sel.count k * matchCount videos k)
    ∧ (heapEntries [mkVideo "v" ["music", "musicvideo"] 5 1] ["music"]).length = 2
    ∧ (tagRatios [mkVideo "v" ["music", "musicvideo"] 5 1] ["music"] "music").length
        = 2 :=
  ⟨heapEntries_length, tagRatios_length, by decide, by decide⟩

/-- C5: the match test the code runs (`find != npos`) is exactly the
spec's MatchRule (substring containment), a selected tag has a
non-empty bucket in the hash strategy exactly when some record has a
raw tag matching it under MatchRule, and the heap pool is empty
exactly when every selected tag's bucket is empty — the two strategies
agree on which tag-to-record associations exist. -/
theorem match_rule_equivalence :
    (∀ t s : String, containsSubstr t s = true ↔ MatchRuleSpec t s)
    ∧ (∀ (videos : List Video) (sel : List String) (s : String), s ∈ sel →
        (tagRatios videos sel s ≠ []
          ↔ ∃ v ∈ videos, ∃ tag ∈ v.tags, MatchRuleSpec tag s))
    ∧ (∀ (videos : List Video) (sel : List String),
        heapEntries videos sel = [] ↔ ∀ s ∈ sel, tagRatios videos sel s = []) := by
  refine ⟨?_, ?_, ?_⟩
  · intro t s
    exact containsSubstrChars_infix_iff t.data s.data
  · intro videos sel s hs
    constructor
    · intro hne
      rcases List.exists_mem_of_ne_nil _ hne with ⟨x, hx⟩
      simp only [tagRatios, List.mem_flatMap, List.mem_filterMap] at hx
      rcases hx with ⟨v, hv, tag, htag, selTag, _, hif⟩
      by_cases hc : selTag = s ∧ containsSubstr tag selTag
      · rcases hc with ⟨rfl, hcc⟩
        exact ⟨v, hv, tag, htag, (containsSubstrChars_infix_iff _ _).mp hcc⟩
      · rw [if_neg hc] at hif
        cases hif
    · rintro ⟨v, hv, tag, htag, hmr⟩
      have hcc : containsSubstr tag s = true :=
        (containsSubstrChars_infix_iff _ _).mpr hmr
      intro habs
      have hmem : v.ratio ∈ tagRatios videos sel s := by
        simp only [tagRatios, List.mem_flatMap, List.mem_filterMap]
        exact ⟨v, hv, tag, htag, s, hs, by rw [if_pos ⟨rfl, hcc⟩]⟩
      rw [habs] at hmem
      cases hmem
  · intro videos sel
    constructor
    · intro hemp s hsel
      have hlen := heapEntries_length videos sel
      rw [hemp] at hlen
      simp only [List.length_nil] at hlen
      have hz : matchCount videos s = 0 := by
        have hle : matchCount videos s
            ≤ (sel.map fun s => matchCount videos s).sum :=
          nat_le_sum_map sel (fun s => matchCount videos s) s hsel
        omega
      have : (tagRatios videos sel s).length = 0 := by
        rw [tagRatios_length, hz, Nat.mul_zero]
      exact List.length_eq_zero.mp this
    · intro hall
      have hz : ∀ s ∈ sel, matchCount videos s = 0 := by
        intro s hsel
        have hlen := congrArg List.length (hall s hsel)
        rw [tagRatios_length] at hlen
        simp only [List.length_nil] at hlen
        have hpos : 0 < sel.count s := List.count_pos_iff.mpr hsel
        rcases Nat.mul_eq_zero.mp hlen with h | h
        · omega
        · exact h
      have : (heapEntries videos sel).length = 0 := by
        rw [heapEntries_length]
        exact nat_sum_map_eq_zero sel _ hz
      exact List.length_eq_zero.mp this

/-- C1: the selector's displayed result holds at most 10 entries
(exactly `min 10 candidates` — fewer than 10 when fewer candidates
exist), is sorted by descending ratio, every displayed entry is the
ratio and title of a record with at least one tag matching some
selected tag under MatchRule, and zero qualifying entries yield an
empty result rather than an error. -/
theorem topK_selector_spec (videos : List Video) (sel : List String)
    (_hne : sel ≠ []) :
    (analyzeWithHeap videos sel).length
        = min 10 (heapEntries videos sel).length
    ∧ (analyzeWithHeap videos sel).Pairwise (fun a b => b.1 ≤ a.1)
    ∧ (∀ p ∈ analyzeWithHeap videos sel, ∃ v ∈ videos,
        p.2 = v.title ∧ p.1 = v.ratio
        ∧ ∃ tag ∈ v.tags, ∃ s ∈ sel, MatchRuleSpec tag s)
    ∧ (heapEntries videos sel = [] → analyzeWithHeap videos sel = []) := by
  refine ⟨?_, ?_, ?_, ?_⟩
  · simp [analyzeWithHeap, List.length_take]
  · have hsorted : ((heapEntries videos sel).mergeSort ratioGe).Pairwise
        (fun a b => ratioGe a b = true) := by
      apply List.sorted_mergeSort
      · intro a b c hab hbc
        simp only [ratioGe, decide_eq_true_eq] at hab hbc ⊢
        exact le_trans hbc hab
      · intro a b
        simp only [ratioGe]
        rcases le_total b.1 a.1 with h | h <;> simp [h]
    have htake := hsorted.take (n := 10)
    exact htake.imp fun h => by simpa [ratioGe] using h
  · intro p hp
    have hp1 : p ∈ (heapEntries videos sel).mergeSort ratioGe :=
      List.mem_of_mem_take hp
    have hp2 : p ∈ heapEntries videos sel := List.mem_mergeSort.mp hp1
    simp only [heapEntries, List.mem_flatMap, List.mem_filterMap] at hp2
    rcases hp2 with ⟨v, hv, tag, htag, s, hs, hif⟩
    by_cases hc : containsSubstr tag s
    · rw [if_pos hc] at hif
      have hp' : (v.ratio, v.title) = p := by
        simpa using hif
      subst hp'
      exact ⟨v, hv, rfl, rfl, tag, htag, s, hs,
        (containsSubstrChars_infix_iff _ _).mp hc⟩
    · rw [if_neg hc] at hif
      cases hif
  · intro h
    simp [analyzeWithHeap, h]

/-- Witness for C1 on the spec's example data and selection. -/
theorem topK_selector_spec_witness :
    (analyzeWithHeap sampleVideos ["music"]).length
      = min 10 (heapEntries sampleVideos ["music"]).length :=
  (topK_selector_spec sampleVideos ["music"] (by decide)).1

/-- Witness for C5 on the spec's example data and selection. -/
theorem match_rule_equivalence_witness :
    tagRatios sampleVideos ["music"] "music" ≠ []
      ↔ ∃ v ∈ sampleVideos, ∃ tag ∈ v.tags, MatchRuleSpec tag "music" :=
  match_rule_equivalence.2.1 sampleVideos ["music"] "music" (by decide)

end TagAnalyzer
